import Mathlib

/-!
Verification development for the pump-curve fitting tool (`Pump_MVC.py`).

The repository's GUI/controller layer (`Pump_Model`, `Pump_Controller`,
`Pump_View`) is embedded from the source file `src/Problem 1/Pump_MVC.py`.
The polynomial least-squares engine (`LeastSquaresFit_Class`, imported in the
source from a module `LeastSquares` that is not part of the source tree) is
modelled from the specification: exact rational arithmetic stands in for
floating point, so "within floating-point tolerance" becomes exact equality.
-/

namespace PumpSpec

open Matrix

/-- Modelled from the spec: the error taxonomy of the missing `LeastSquares`
module — `InvalidInputError` for mismatched/empty input and
`IllConditionedFitError` for a singular normal system (the spec's
"raise a domain-specific error" policy choice). -/
inductive FitError where
  | invalidInput
  | illConditionedFit
deriving DecidableEq, Repr

/-- Modelled from the spec: evaluation of a polynomial given by its
coefficient list `[c0, c1, ..., cd]` (ascending power order, constant term
first) at a point `t`, by Horner's method. -/
def polyEval (c : List ℚ) (t : ℚ) : ℚ :=
  match c with
  | [] => 0
  | a :: rest => a + t * polyEval rest t

/-- Modelled from the spec: `evaluate(model, xs)` — pure pointwise polynomial
evaluation at each sample point. -/
def evaluate (c : List ℚ) (xs : List ℚ) : List ℚ :=
  xs.map (polyEval c)

/-- Arithmetic mean of a sample list (`sum / length`). -/
def mean (y : List ℚ) : ℚ :=
  y.sum / (y.length : ℚ)

/-- Modelled from the spec: residual sum of squares
`SS_res = Σ (y_i − ŷ_i)²`, with `ŷ` produced by `evaluate`. -/
def ssRes (c x y : List ℚ) : ℚ :=
  ((y.zip (evaluate c x)).map (fun p => (p.1 - p.2) ^ 2)).sum

/-- Modelled from the spec: total sum of squares
`SS_tot = Σ (y_i − mean(y))²`. -/
def ssTot (y : List ℚ) : ℚ :=
  (y.map (fun v => (v - mean y) ^ 2)).sum

/-- Modelled from the spec: `coefficientOfDetermination(model, x, y)` computes
`R² = 1 − SS_res/SS_tot`; when all `y_i` are identical (`SS_tot = 0`) it
returns the defined sentinel — `1` when `SS_res = 0`, else `0` — instead of
dividing by zero. -/
def coefficientOfDetermination (c x y : List ℚ) : ℚ :=
  if ssTot y = 0 then (if ssRes c x y = 0 then 1 else 0)
  else 1 - ssRes c x y / ssTot y

/-- Modelled from the spec: the Vandermonde-style design matrix `V` whose row
`i` is `[1, x_i, x_i², ..., x_i^degree]`. -/
def designMatrix (n d : ℕ) (xv : Fin n → ℚ) : Matrix (Fin n) (Fin (d + 1)) ℚ :=
  Matrix.of fun i j => xv i ^ (j : ℕ)

/-- The normal-equations matrix `Vᵀ·V` of the least-squares system. -/
def normalMatrix (n d : ℕ) (xv : Fin n → ℚ) : Matrix (Fin (d + 1)) (Fin (d + 1)) ℚ :=
  (designMatrix n d xv)ᵀ * designMatrix n d xv

/-- Right-hand side `Vᵀ·y` of the normal equations. -/
def normalRhs (n d : ℕ) (xv yv : Fin n → ℚ) : Fin (d + 1) → ℚ :=
  (designMatrix n d xv)ᵀ *ᵥ yv

/-- Modelled from the spec: solve the normal equations `VᵀV·c = Vᵀ·y`
minimizing `‖V·c − y‖²`; `none` when the system is singular. -/
def solveCoeffs (n d : ℕ) (xv yv : Fin n → ℚ) : Option (Fin (d + 1) → ℚ) :=
  if (normalMatrix n d xv).det = 0 then none
  else some (((normalMatrix n d xv).det)⁻¹ •
    ((normalMatrix n d xv).adjugate *ᵥ normalRhs n d xv yv))

/-- Modelled from the spec: `fit(x, y, degree)` — checks that `x` and `y`
have equal positive length (else `InvalidInputError`), solves the
least-squares normal equations, and returns the coefficient vector of length
`degree + 1` in ascending power order; a singular system signals
`IllConditionedFitError`. -/
def fit (x y : List ℚ) (degree : ℕ) : Except FitError (List ℚ) :=
  if h : x.length = y.length ∧ x ≠ [] then
    match solveCoeffs x.length degree x.get (fun i => y.get (Fin.cast h.1 i)) with
    | none => .error .illConditionedFit
    | some c => .ok (List.ofFn c)
  else .error .invalidInput

/-- Modelled from the spec: the state of a `LeastSquaresFit_Class` object —
the caller assigns the sample arrays `x` and `y`, and `LeastSquares(degree)`
stores the fit result. -/
structure LeastSquaresFit_Class where
  x : List ℚ
  y : List ℚ
  fitResult : Except FitError (List ℚ)
deriving Repr

/-- A freshly constructed fitter object: empty samples, nothing fitted. -/
def LeastSquaresFit_Class.init : LeastSquaresFit_Class :=
  ⟨[], [], .error .invalidInput⟩

/-- Modelled from the spec: the `LeastSquares(degree)` method — computes the
least-squares fit of the stored samples and stores the result. -/
def LeastSquares (s : LeastSquaresFit_Class) (degree : ℕ) : LeastSquaresFit_Class :=
  { s with fitResult := fit s.x s.y degree }

/-! ### Embedding of `Pump_MVC.py` (source file `src/Problem 1/Pump_MVC.py`) -/

/-- The pump model of `Pump_MVC.py`: it just stores data. Numeric arrays are
rational lists; a data line handed to `SetData` is modelled as its list of
already-parsed numeric cells (the `line.strip().split()` plus `float(...)`
step of the source). -/
structure Pump_Model where
  PumpName : String
  FlowUnits : String
  HeadUnits : String
  FlowData : List ℚ
  HeadData : List ℚ
  EffData : List ℚ
  LSFitHead : LeastSquaresFit_Class
  LSFitEff : LeastSquaresFit_Class

namespace Pump_Controller

/-- `Pump_Controller.LSFit`: assigns `FlowData` as the x samples of both
fitter objects, fits the head data with a fixed 2nd-degree polynomial and the
efficiency data with a fixed 3rd-degree polynomial. -/
def LSFit (m : Pump_Model) : Pump_Model :=
  { m with
    LSFitHead := LeastSquares { m.LSFitHead with x := m.FlowData, y := m.HeadData } 2,
    LSFitEff := LeastSquares { m.LSFitEff with x := m.FlowData, y := m.EffData } 3 }

/-- `Pump_Controller.SetData`: clears the stored arrays, parses each line's
first three cells into `FlowData`, `HeadData` and `EffData`, then calls
`LSFit`. A line with fewer than three cells makes the Python source raise an
`IndexError`, modelled as `none`. -/
def SetData (m : Pump_Model) (dataLines : List (List ℚ)) : Option Pump_Model :=
  if ∀ l ∈ dataLines, 3 ≤ l.length then
    some (LSFit { m with
      FlowData := dataLines.map fun l => l.getD 0 0,
      HeadData := dataLines.map fun l => l.getD 1 0,
      EffData := dataLines.map fun l => l.getD 2 0 })
  else none

end Pump_Controller

namespace Pump_View

/-- Modelled from the spec: `GetPlotInfo(degree)` of the missing
`LeastSquaresFit_Class` — the spec's `FitResult`: evaluation points of the
fitted degree-`degree` curve plus the R² score. -/
def GetPlotInfo (s : LeastSquaresFit_Class) (degree : ℕ) : List ℚ × List ℚ × ℚ :=
  match fit s.x s.y degree with
  | .ok c => (s.x, evaluate c s.x, coefficientOfDetermination c s.x s.y)
  | .error _ => (s.x, [], 0)

/-- `Pump_View.DoPlot`, data-relevant part: requests the head curve with a
degree-2 fit and the efficiency curve with a degree-3 fit. -/
def DoPlot (m : Pump_Model) : (List ℚ × List ℚ × ℚ) × (List ℚ × List ℚ × ℚ) :=
  (GetPlotInfo m.LSFitHead 2, GetPlotInfo m.LSFitEff 3)

end Pump_View

/-! ### Basic summation lemmas for the list-level quantities -/

theorem polyEval_eq_range_sum (p : List ℚ) (t : ℚ) :
    polyEval p t = ∑ j ∈ Finset.range p.length, p.getD j 0 * t ^ j := by
  induction p with
  | nil => simp [polyEval]
  | cons a rest ih =>
      rw [List.length_cons, Finset.sum_range_succ']
      simp only [List.getD_cons_succ, List.getD_cons_zero, pow_zero, mul_one]
      rw [show polyEval (a :: rest) t = a + t * polyEval rest t from rfl, ih, Finset.mul_sum]
      rw [add_comm]
      congr 1
      exact Finset.sum_congr rfl fun j _ => by ring

theorem sum_map_zip_range (f : ℚ × ℚ → ℚ) (as bs : List ℚ) (h : as.length = bs.length) :
    ((as.zip bs).map f).sum = ∑ i ∈ Finset.range as.length, f (as.getD i 0, bs.getD i 0) := by
  induction as generalizing bs with
  | nil => simp
  | cons a as ih =>
      cases bs with
      | nil => simp at h
      | cons b bs =>
          simp only [List.zip_cons_cons, List.map_cons, List.sum_cons, List.length_cons]
          rw [Finset.sum_range_succ']
          simp only [List.getD_cons_succ, List.getD_cons_zero]
          rw [ih bs (by simpa using h)]
          ring

theorem sum_map_range (f : ℚ → ℚ) (l : List ℚ) :
    (l.map f).sum = ∑ i ∈ Finset.range l.length, f (l.getD i 0) := by
  induction l with
  | nil => simp
  | cons a l ih =>
      simp only [List.map_cons, List.sum_cons, List.length_cons]
      rw [Finset.sum_range_succ']
      simp only [List.getD_cons_succ, List.getD_cons_zero]
      rw [ih]
      ring

theorem ssRes_eq_range (c x y : List ℚ) (h : x.length = y.length) :
    ssRes c x y
      = ∑ i ∈ Finset.range y.length, (y.getD i 0 - (evaluate c x).getD i 0) ^ 2 := by
  rw [ssRes, sum_map_zip_range (fun p => (p.1 - p.2) ^ 2) y (evaluate c x)
    (by simp [evaluate, h])]

theorem ssTot_eq_range (y : List ℚ) :
    ssTot y = ∑ i ∈ Finset.range y.length, (y.getD i 0 - mean y) ^ 2 :=
  sum_map_range _ y

theorem sum_eq_range_getD (l : List ℚ) :
    l.sum = ∑ i ∈ Finset.range l.length, l.getD i 0 := by
  have := sum_map_range id l
  simpa using this

theorem ofFn_getD_of_length (m : ℕ) (l : List ℚ) (h : l.length = m) :
    List.ofFn (fun j : Fin m => l.getD j 0) = l := by
  subst h
  have hfun : (fun j : Fin l.length => l.getD j 0)
      = fun j : Fin l.length => l[(j : ℕ)] := by
    funext j
    exact List.getD_eq_getElem l 0 j.isLt
  rw [hfun, List.ofFn_getElem]

/-! ### The normal equations recover an exactly-polynomial data set -/

theorem normalMatrix_det_ne_zero (n d : ℕ) (xv : Fin n → ℚ)
    (φ : Fin (d + 1) → Fin n) (hφ : Function.Injective fun k => xv (φ k)) :
    (normalMatrix n d xv).det ≠ 0 := by
  intro hdet
  obtain ⟨v, hv, hNv⟩ := Matrix.exists_mulVec_eq_zero_iff.mpr hdet
  have hAv : designMatrix n d xv *ᵥ v = 0 := by
    have h2 := congr_arg (dotProduct v) hNv
    rw [normalMatrix, ← Matrix.mulVec_mulVec, Matrix.dotProduct_mulVec,
      Matrix.vecMul_transpose, Matrix.dotProduct_zero,
      Matrix.dotProduct_self_eq_zero] at h2
    exact h2
  have hrows : ∀ k : Fin (d + 1), ∑ j : Fin (d + 1), xv (φ k) ^ (j : ℕ) * v j = 0 := by
    intro k
    have hk := congr_fun hAv (φ k)
    simpa [designMatrix, Matrix.mulVec, dotProduct] using hk
  exact hv (Matrix.eq_zero_of_forall_index_sum_pow_mul_eq_zero hφ hrows)

theorem solveCoeffs_exact (n d : ℕ) (xv yv : Fin n → ℚ) (c₀ : Fin (d + 1) → ℚ)
    (hy : designMatrix n d xv *ᵥ c₀ = yv)
    (hdet : (normalMatrix n d xv).det ≠ 0) :
    solveCoeffs n d xv yv = some c₀ := by
  rw [solveCoeffs, if_neg hdet]
  congr 1
  have hrhs : normalRhs n d xv yv = normalMatrix n d xv *ᵥ c₀ := by
    rw [normalRhs, ← hy, Matrix.mulVec_mulVec, normalMatrix]
  rw [hrhs, Matrix.mulVec_mulVec, Matrix.adjugate_mul, Matrix.smul_mulVec_assoc,
    Matrix.one_mulVec, smul_smul, inv_mul_cancel₀ hdet, one_smul]

theorem fit_eq_of_exact (d : ℕ) (x y : List ℚ) (c₀ : Fin (d + 1) → ℚ)
    (hlen : x.length = y.length) (hne : x ≠ [])
    (hy : ∀ i : Fin x.length,
      y.get (Fin.cast hlen i) = ∑ j : Fin (d + 1), c₀ j * x.get i ^ (j : ℕ))
    (hdist : ∃ φ : Fin (d + 1) → Fin x.length, Function.Injective fun k => x.get (φ k)) :
    fit x y d = .ok (List.ofFn c₀) := by
  obtain ⟨φ, hφ⟩ := hdist
  have hA : designMatrix x.length d x.get *ᵥ c₀ = fun i => y.get (Fin.cast hlen i) := by
    funext i
    have hmv : (designMatrix x.length d x.get *ᵥ c₀) i
        = ∑ j : Fin (d + 1), x.get i ^ (j : ℕ) * c₀ j := by
      simp [designMatrix, Matrix.mulVec, dotProduct]
    rw [hmv, hy i]
    exact Finset.sum_congr rfl fun j _ => mul_comm _ _
  have hdet := normalMatrix_det_ne_zero x.length d x.get φ hφ
  rw [fit, dif_pos (⟨hlen, hne⟩ : x.length = y.length ∧ x ≠ [])]
  rw [solveCoeffs_exact x.length d x.get _ c₀ hA hdet]

/-! ### Zero residuals and a perfect coefficient of determination -/

theorem ssRes_eq_zero_of_exact (c x y : List ℚ) (hlen : x.length = y.length)
    (hexact : ∀ i < y.length, y.getD i 0 = polyEval c (x.getD i 0)) :
    ssRes c x y = 0 := by
  rw [ssRes_eq_range c x y hlen]
  refine Finset.sum_eq_zero fun i hi => ?_
  rw [Finset.mem_range] at hi
  have hix : i < x.length := hlen ▸ hi
  have hev : (evaluate c x).getD i 0 = polyEval c (x.getD i 0) := by
    rw [evaluate, List.getD_eq_getElem _ 0 (by simpa using hix), List.getElem_map,
      List.getD_eq_getElem x 0 hix]
  rw [hev, ← hexact i hi, sub_self]
  norm_num

theorem cod_eq_one_of_ssRes_zero (c x y : List ℚ) (h : ssRes c x y = 0) :
    coefficientOfDetermination c x y = 1 := by
  rw [coefficientOfDetermination, h]
  by_cases ht : ssTot y = 0
  · rw [if_pos ht, if_pos rfl]
  · rw [if_neg ht, zero_div, sub_zero]

theorem polyEval_ofFn (d : ℕ) (c₀ : Fin (d + 1) → ℚ) (t : ℚ) :
    polyEval (List.ofFn c₀) t = ∑ j : Fin (d + 1), c₀ j * t ^ (j : ℕ) := by
  rw [polyEval_eq_range_sum, List.length_ofFn,
    ← Fin.sum_univ_eq_sum_range (fun j => (List.ofFn c₀).getD j 0 * t ^ j) (d + 1)]
  refine Finset.sum_congr rfl fun j _ => ?_
  rw [List.getD_eq_getElem _ 0 (by simp), List.getElem_ofFn]

/-- The full exact-recovery fact, shared by several claims: if the sample set
lies exactly on the polynomial with coefficient list `p` of length `d + 1`
and at least `d + 1` of the `x` values are distinct, then `fit` returns
exactly `p` and the coefficient of determination is `1`. -/
theorem fit_recovery (d : ℕ) (x y p : List ℚ)
    (hlen : x.length = y.length) (hp : p.length = d + 1)
    (hexact : ∀ i < y.length, y.getD i 0 = polyEval p (x.getD i 0))
    (hdist : ∃ φ : Fin (d + 1) → Fin x.length, Function.Injective fun k => x.get (φ k)) :
    fit x y d = .ok p ∧ coefficientOfDetermination p x y = 1 := by
  constructor
  · have hne : x ≠ [] := by
      obtain ⟨φ, -⟩ := hdist
      exact List.length_pos.mp (φ 0).pos
    have hy : ∀ i : Fin x.length,
        y.get (Fin.cast hlen i) = ∑ j : Fin (d + 1), (p.getD j 0) * x.get i ^ (j : ℕ) := by
      intro i
      have hiy : (i : ℕ) < y.length := hlen ▸ i.isLt
      calc y.get (Fin.cast hlen i) = y.getD i 0 := by
            rw [List.getD_eq_getElem y 0 hiy, List.get_eq_getElem]
            rfl
        _ = polyEval p (x.getD i 0) := hexact i hiy
        _ = polyEval p (x.get i) := by
            rw [List.getD_eq_getElem x 0 i.isLt, List.get_eq_getElem]
        _ = ∑ j ∈ Finset.range p.length, p.getD j 0 * x.get i ^ j :=
            polyEval_eq_range_sum p _
        _ = ∑ j : Fin (d + 1), (p.getD j 0) * x.get i ^ (j : ℕ) := by
            rw [hp, ← Fin.sum_univ_eq_sum_range (fun j => p.getD j 0 * x.get i ^ j) (d + 1)]
    have hfit := fit_eq_of_exact d x y (fun j => p.getD j 0) hlen hne hy hdist
    rw [hfit, ofFn_getD_of_length (d + 1) p hp]
  · exact cod_eq_one_of_ssRes_zero _ _ _ (ssRes_eq_zero_of_exact p x y hlen hexact)

/-! ### Exact interpolation with degree + 1 distinct points -/

theorem vandermonde_solve (d : ℕ) (xv yv : Fin (d + 1) → ℚ)
    (hinj : Function.Injective xv) :
    ∃ c₀ : Fin (d + 1) → ℚ, designMatrix (d + 1) d xv *ᵥ c₀ = yv := by
  have hdet : (Matrix.vandermonde xv).det ≠ 0 :=
    Matrix.det_vandermonde_ne_zero_iff.mpr hinj
  refine ⟨((Matrix.vandermonde xv).det)⁻¹ • ((Matrix.vandermonde xv).adjugate *ᵥ yv), ?_⟩
  have hVd : designMatrix (d + 1) d xv = Matrix.vandermonde xv := rfl
  rw [hVd, Matrix.mulVec_smul, Matrix.mulVec_mulVec, Matrix.mul_adjugate,
    Matrix.smul_mulVec_assoc, Matrix.one_mulVec, smul_smul, inv_mul_cancel₀ hdet, one_smul]

theorem interpolation_exact (d : ℕ) (x y : List ℚ)
    (hx : x.length = d + 1) (hlen : x.length = y.length)
    (hinj : Function.Injective x.get) :
    ∃ c : List ℚ, fit x y d = .ok c ∧ evaluate c x = y := by
  set xv : Fin (d + 1) → ℚ := fun k => x.get (Fin.cast hx.symm k) with hxv
  set yv : Fin (d + 1) → ℚ := fun k => y.get (Fin.cast (hx.symm.trans hlen) k) with hyv
  have hinjv : Function.Injective xv := by
    intro a b hab
    have := hinj (hab : x.get (Fin.cast hx.symm a) = x.get (Fin.cast hx.symm b))
    simpa [Fin.ext_iff] using this
  obtain ⟨c₀, hc₀⟩ := vandermonde_solve d xv yv hinjv
  have hy : ∀ i : Fin x.length,
      y.get (Fin.cast hlen i) = ∑ j : Fin (d + 1), c₀ j * x.get i ^ (j : ℕ) := by
    intro i
    have hrow := congr_fun hc₀ (Fin.cast hx i)
    have hmv : (designMatrix (d + 1) d xv *ᵥ c₀) (Fin.cast hx i)
        = ∑ j : Fin (d + 1), xv (Fin.cast hx i) ^ (j : ℕ) * c₀ j := by
      simp [designMatrix, Matrix.mulVec, dotProduct]
    rw [hmv] at hrow
    have hxx : xv (Fin.cast hx i) = x.get i := rfl
    have hyy : yv (Fin.cast hx i) = y.get (Fin.cast hlen i) := rfl
    rw [hxx, hyy] at hrow
    rw [← hrow]
    exact Finset.sum_congr rfl fun j _ => mul_comm _ _
  have hne : x ≠ [] := by
    have : 0 < x.length := by omega
    exact List.length_pos.mp this
  have hdist : ∃ φ : Fin (d + 1) → Fin x.length,
      Function.Injective fun k => x.get (φ k) :=
    ⟨fun k => Fin.cast hx.symm k, hinjv⟩
  have hfit := fit_eq_of_exact d x y c₀ hlen hne hy hdist
  refine ⟨List.ofFn c₀, hfit, ?_⟩
  apply List.ext_getElem (by simp [evaluate, hlen])
  intro i h1 h2
  have hi : i < x.length := by simpa [evaluate] using h1
  have hev : (evaluate (List.ofFn c₀) x)[i] = polyEval (List.ofFn c₀) (x.get ⟨i, hi⟩) := by
    simp [evaluate]
  rw [hev, polyEval_ofFn]
  have hrev := (hy ⟨i, hi⟩).symm
  rw [hrev, List.get_eq_getElem]
  rfl

theorem exact_of_evaluate_eq (c x y : List ℚ) (hlen : x.length = y.length)
    (h : evaluate c x = y) :
    ∀ i < y.length, y.getD i 0 = polyEval c (x.getD i 0) := by
  intro i hi
  have hix : i < x.length := hlen ▸ hi
  rw [← h, evaluate, List.getD_eq_getElem _ 0 (by simpa using hix), List.getElem_map,
    List.getD_eq_getElem x 0 hix]

/-! ### Constant samples: zero total variance -/

theorem sum_const_list (v : ℚ) (y : List ℚ) (hall : ∀ u ∈ y, u = v) :
    y.sum = (y.length : ℚ) * v := by
  induction y with
  | nil => simp
  | cons a t ih =>
      have ha : a = v := hall a (List.mem_cons_self a t)
      have ht := ih fun u hu => hall u (List.mem_cons_of_mem a hu)
      simp only [List.sum_cons, List.length_cons, ha, ht]
      push_cast
      ring

theorem mean_const (v : ℚ) (y : List ℚ) (hy : y ≠ []) (hall : ∀ u ∈ y, u = v) :
    mean y = v := by
  have hn : (y.length : ℚ) ≠ 0 := by
    have : y.length ≠ 0 := fun h0 => hy (List.length_eq_zero.mp h0)
    exact_mod_cast this
  rw [mean, sum_const_list v y hall, mul_comm, mul_div_assoc, div_self hn, mul_one]

theorem ssTot_const (v : ℚ) (y : List ℚ) (hy : y ≠ []) (hall : ∀ u ∈ y, u = v) :
    ssTot y = 0 := by
  rw [ssTot]
  refine List.sum_eq_zero fun t ht => ?_
  obtain ⟨u, hu, rfl⟩ := List.mem_map.mp ht
  rw [hall u hu, mean_const v y hy hall, sub_self]
  norm_num

/-! ### The degree-0 fit returns the mean -/

theorem sum_get_cast (y : List ℚ) (m : ℕ) (h : m = y.length) :
    ∑ k : Fin m, y.get (Fin.cast h k) = y.sum := by
  subst h
  conv_rhs => rw [← List.ofFn_get y]
  rw [List.sum_ofFn]
  rfl

theorem fit_degree_zero (x y : List ℚ) (hlen : x.length = y.length) (hne : x ≠ []) :
    fit x y 0 = .ok [mean y] := by
  have hnlen : x.length ≠ 0 := fun h => hne (List.length_eq_zero.mp h)
  have hdetval : (normalMatrix x.length 0 x.get).det = (x.length : ℚ) := by
    have hN : normalMatrix x.length 0 x.get 0 0 = (x.length : ℚ) := by
      simp [normalMatrix, designMatrix, Matrix.mul_apply]
    rw [Matrix.det_fin_one, hN]
  have hdet : (normalMatrix x.length 0 x.get).det ≠ 0 := by
    rw [hdetval]
    exact_mod_cast hnlen
  rw [fit, dif_pos (⟨hlen, hne⟩ : x.length = y.length ∧ x ≠ []), solveCoeffs, if_neg hdet]
  have hadj : (normalMatrix x.length 0 x.get).adjugate = 1 := Matrix.adjugate_fin_one _
  have hrhs : normalRhs x.length 0 x.get (fun i => y.get (Fin.cast hlen i))
      = fun _ => y.sum := by
    funext j
    have hj : normalRhs x.length 0 x.get (fun i => y.get (Fin.cast hlen i)) j
        = ∑ k : Fin x.length, y.get (Fin.cast hlen k) := by
      simp [normalRhs, designMatrix, Matrix.mulVec, dotProduct]
    rw [hj, sum_get_cast y x.length hlen]
  rw [hadj, Matrix.one_mulVec, hdetval, hrhs]
  have hmean : (x.length : ℚ)⁻¹ • (fun _ : Fin 1 => y.sum) = fun _ : Fin 1 => mean y := by
    funext j
    simp [mean, hlen, div_eq_inv_mul]
  rw [hmean]
  simp [List.ofFn_succ]

/-! ### The claims -/

/-- C1: for every sample set (x, y) whose points lie exactly on a polynomial
of degree at most d — coefficient list `p` of length `d + 1`, trailing zeros
allowed — with at least `d + 1` distinct x values, `fit(x, y, d)` returns
exactly the coefficients of `p`, and `coefficientOfDetermination` applied to
that model and the same data returns 1 (exact rational arithmetic stands in
for floating-point tolerance). -/
theorem C1_fit_recovers_exact_polynomial (d : ℕ) (x y p : List ℚ)
    (hlen : x.length = y.length) (hp : p.length = d + 1)
    (hexact : ∀ i < y.length, y.getD i 0 = polyEval p (x.getD i 0))
    (hdist : ∃ φ : Fin (d + 1) → Fin x.length, Function.Injective fun k => x.get (φ k)) :
    fit x y d = .ok p ∧ coefficientOfDetermination p x y = 1 :=
  fit_recovery d x y p hlen hp hexact hdist

/-- C1 witness: the spec's concrete scenario x = [0,1,2,3,4], y = [1,2,3,4,5]
(linear data), degree 2, recovers coefficients [1, 1, 0] with R² = 1. -/
theorem C1_witness :
    fit [0, 1, 2, 3, 4] [1, 2, 3, 4, 5] 2 = .ok [1, 1, 0]
      ∧ coefficientOfDetermination [1, 1, 0] [0, 1, 2, 3, 4] [1, 2, 3, 4, 5] = 1 := by
  refine C1_fit_recovers_exact_polynomial 2 [0, 1, 2, 3, 4] [1, 2, 3, 4, 5] [1, 1, 0]
    rfl rfl ?_ ?_
  · intro i hi
    have hi5 : i < 5 := by simpa using hi
    interval_cases i <;> norm_num [polyEval]
  · refine ⟨fun k => Fin.castLE (by norm_num) k, ?_⟩
    intro a b hab
    fin_cases a <;> fin_cases b <;> simp_all

/-- C2: the coefficient of determination equals `1 − SS_res/SS_tot`, with
`SS_res` the sum of squared residuals between `y` and the model's
predictions, and `SS_tot` the sum of squared deviations of `y` from its
mean, whenever the total variance is non-zero. -/
theorem C2_cod_formula (c x y : List ℚ)
    (hlen : x.length = y.length) (hne : y ≠ []) (hvar : ssTot y ≠ 0) :
    coefficientOfDetermination c x y
      = 1 - (∑ i ∈ Finset.range y.length, (y.getD i 0 - (evaluate c x).getD i 0) ^ 2)
          / (∑ i ∈ Finset.range y.length, (y.getD i 0 - mean y) ^ 2) := by
  rw [coefficientOfDetermination, if_neg hvar, ssRes_eq_range c x y hlen, ssTot_eq_range]

/-- C2 witness at x = [0,1], y = [0,1], model [0]. -/
theorem C2_witness :
    coefficientOfDetermination [0] [0, 1] [0, 1]
      = 1 - (∑ i ∈ Finset.range ([0, 1] : List ℚ).length,
              (([0, 1] : List ℚ).getD i 0 - (evaluate [0] [0, 1]).getD i 0) ^ 2)
          / (∑ i ∈ Finset.range ([0, 1] : List ℚ).length,
              (([0, 1] : List ℚ).getD i 0 - mean [0, 1]) ^ 2) :=
  C2_cod_formula [0] [0, 1] [0, 1] rfl (by simp)
    (by norm_num [ssTot, mean])

/-- C3: when all y values are identical the total variance is zero and
`coefficientOfDetermination` returns the defined sentinel (1 when the
residual sum is zero, 0 otherwise) instead of dividing by zero; in
particular fit on x = [1,2,3], y = [5,5,5] with degree 1 yields exactly
[5, 0] and the R² computation returns 1. -/
theorem C3_zero_variance_sentinel (c x y : List ℚ) (v : ℚ)
    (hy : y ≠ []) (hall : ∀ u ∈ y, u = v) :
    (ssTot y = 0
      ∧ coefficientOfDetermination c x y = (if ssRes c x y = 0 then 1 else 0))
    ∧ fit [1, 2, 3] [5, 5, 5] 1 = .ok [5, 0]
    ∧ coefficientOfDetermination [5, 0] [1, 2, 3] [5, 5, 5] = 1 := by
  have h0 : ssTot y = 0 := ssTot_const v y hy hall
  have hconc := fit_recovery 1 [1, 2, 3] [5, 5, 5] [5, 0] rfl rfl ?hex ?hdi
  · exact ⟨⟨h0, by rw [coefficientOfDetermination, if_pos h0]⟩, hconc.1, hconc.2⟩
  case hex =>
    intro i hi
    have hi3 : i < 3 := by simpa using hi
    interval_cases i <;> norm_num [polyEval]
  case hdi =>
    refine ⟨fun k => Fin.castLE (by norm_num) k, ?_⟩
    intro a b hab
    fin_cases a <;> fin_cases b <;> simp_all

/-- C3 witness at y = [2, 2] (all samples equal to 2). -/
theorem C3_witness :
    (ssTot [2, 2] = 0
      ∧ coefficientOfDetermination [0] [1, 2] [2, 2]
          = (if ssRes [0] [1, 2] [2, 2] = 0 then 1 else 0))
    ∧ fit [1, 2, 3] [5, 5, 5] 1 = .ok [5, 0]
    ∧ coefficientOfDetermination [5, 0] [1, 2, 3] [5, 5, 5] = 1 :=
  C3_zero_variance_sentinel [0] [1, 2] [2, 2] 2 (by simp)
    (by intro u hu; fin_cases hu <;> rfl)

/-- C4: `fit` is deterministic and keeps no hidden mutable state: two calls
on fitter objects with arbitrary, possibly different prior states — i.e.
separated by arbitrary other fits — but identical assigned samples and
degree store identical results; the result depends only on the explicit
inputs. -/
theorem C4_fit_deterministic (s₁ s₂ : LeastSquaresFit_Class) (x y : List ℚ) (d : ℕ) :
    (LeastSquares { s₁ with x := x, y := y } d).fitResult
      = (LeastSquares { s₂ with x := x, y := y } d).fitResult :=
  rfl

/-- C5: the ŷ values the R² computation uses for its residuals are exactly
`evaluate` applied to the fitting x values, so the evaluated curve and the
reported R² agree. -/
theorem C5_evaluate_consistent_with_r2 (c x y : List ℚ)
    (hlen : x.length = y.length) :
    ssRes c x y
      = ∑ i ∈ Finset.range y.length, (y.getD i 0 - (evaluate c x).getD i 0) ^ 2
    ∧ (ssTot y ≠ 0 → coefficientOfDetermination c x y
        = 1 - (∑ i ∈ Finset.range y.length,
            (y.getD i 0 - (evaluate c x).getD i 0) ^ 2) / ssTot y) := by
  refine ⟨ssRes_eq_range c x y hlen, fun hvar => ?_⟩
  rw [coefficientOfDetermination, if_neg hvar, ssRes_eq_range c x y hlen]

/-- C5 witness at model [0], x = [0,1], y = [0,1]. -/
theorem C5_witness :
    ssRes [0] [0, 1] [0, 1]
      = ∑ i ∈ Finset.range ([0, 1] : List ℚ).length,
          (([0, 1] : List ℚ).getD i 0 - (evaluate [0] [0, 1]).getD i 0) ^ 2
    ∧ (ssTot [0, 1] ≠ 0 → coefficientOfDetermination [0] [0, 1] [0, 1]
        = 1 - (∑ i ∈ Finset.range ([0, 1] : List ℚ).length,
            (([0, 1] : List ℚ).getD i 0 - (evaluate [0] [0, 1]).getD i 0) ^ 2)
              / ssTot [0, 1]) :=
  C5_evaluate_consistent_with_r2 [0] [0, 1] [0, 1] rfl

/-- C6: with exactly degree + 1 points and pairwise-distinct x values, `fit`
returns the exact interpolating polynomial: every residual is zero (the
evaluated curve reproduces y exactly) and the coefficient of determination
is 1. -/
theorem C6_exact_interpolation (d : ℕ) (x y : List ℚ)
    (hx : x.length = d + 1) (hylen : y.length = d + 1)
    (hinj : Function.Injective x.get) :
    ∃ c : List ℚ, fit x y d = .ok c ∧ evaluate c x = y
      ∧ coefficientOfDetermination c x y = 1 := by
  have hlen : x.length = y.length := hx.trans hylen.symm
  obtain ⟨c, hfit, hev⟩ := interpolation_exact d x y hx hlen hinj
  exact ⟨c, hfit, hev, cod_eq_one_of_ssRes_zero c x y
    (ssRes_eq_zero_of_exact c x y hlen (exact_of_evaluate_eq c x y hlen hev))⟩

/-- C6 witness: two points, degree 1. -/
theorem C6_witness :
    ∃ c : List ℚ, fit [0, 1] [3, 7] 1 = .ok c ∧ evaluate c [0, 1] = [3, 7]
      ∧ coefficientOfDetermination c [0, 1] [3, 7] = 1 := by
  refine C6_exact_interpolation 1 [0, 1] [3, 7] rfl rfl ?_
  intro a b hab
  fin_cases a <;> fin_cases b <;> simp_all

/-- C7: a degree-0 fit of any non-empty sample set returns the single
coefficient equal to the arithmetic mean of y. -/
theorem C7_degree_zero_mean (x y : List ℚ)
    (hlen : x.length = y.length) (hne : x ≠ []) :
    fit x y 0 = .ok [mean y] :=
  fit_degree_zero x y hlen hne

/-- C7 witness at x = [1, 2], y = [3, 5]. -/
theorem C7_witness : fit [1, 2] [3, 5] 0 = .ok [mean [3, 5]] :=
  C7_degree_zero_mean [1, 2] [3, 5] rfl (by simp)

/-- C8: mismatched array lengths or empty input make `fit` fail fast with
`InvalidInputError` instead of returning a coefficient vector (non-numeric
values cannot arise in the typed embedding). -/
theorem C8_invalid_input (x y : List ℚ) (d : ℕ)
    (h : x.length ≠ y.length ∨ x = []) :
    fit x y d = .error .invalidInput := by
  rw [fit, dif_neg]
  rintro ⟨h1, h2⟩
  rcases h with h | h
  · exact h h1
  · exact h2 h

/-- C8 witness: mismatched lengths. -/
theorem C8_witness : fit [1] [] 0 = .error .invalidInput :=
  C8_invalid_input [1] [] 0 (Or.inl (by simp))

/-- C9: after `SetData` with lines of at least three numeric cells, the model
holds exactly one entry per line in each of `FlowData`, `HeadData` and
`EffData` — the parsed first, second and third cell respectively — with all
previously stored data discarded, so the three arrays have equal length. -/
theorem C9_setData_parses (m : Pump_Model) (dataLines : List (List ℚ))
    (h : ∀ l ∈ dataLines, 3 ≤ l.length) :
    ∃ m', Pump_Controller.SetData m dataLines = some m'
      ∧ m'.FlowData = dataLines.map (fun l => l.getD 0 0)
      ∧ m'.HeadData = dataLines.map (fun l => l.getD 1 0)
      ∧ m'.EffData = dataLines.map (fun l => l.getD 2 0)
      ∧ m'.FlowData.length = dataLines.length
      ∧ m'.HeadData.length = dataLines.length
      ∧ m'.EffData.length = dataLines.length := by
  rw [Pump_Controller.SetData, if_pos h]
  refine ⟨_, rfl, ?_, ?_, ?_, ?_, ?_, ?_⟩ <;>
    simp [Pump_Controller.LSFit, LeastSquares]

/-- C9 witness on two concrete data lines. -/
theorem C9_witness :
    ∃ m', Pump_Controller.SetData
        ⟨"", "", "", [], [], [], .init, .init⟩ [[1, 2, 3], [4, 5, 6]] = some m'
      ∧ m'.FlowData = [[1, 2, 3], [4, 5, 6]].map (fun l => l.getD 0 0)
      ∧ m'.HeadData = [[1, 2, 3], [4, 5, 6]].map (fun l => l.getD 1 0)
      ∧ m'.EffData = [[1, 2, 3], [4, 5, 6]].map (fun l => l.getD 2 0)
      ∧ m'.FlowData.length = [[1, 2, 3], [4, 5, 6]].length
      ∧ m'.HeadData.length = [[1, 2, 3], [4, 5, 6]].length
      ∧ m'.EffData.length = [[1, 2, 3], [4, 5, 6]].length :=
  C9_setData_parses ⟨"", "", "", [], [], [], .init, .init⟩ [[1, 2, 3], [4, 5, 6]]
    (by intro l hl; fin_cases hl <;> simp)

/-- C10: `LSFit` always fits the head data with the fixed degree 2 and the
efficiency data with the fixed degree 3, both against `FlowData` as the x
samples, and `DoPlot` requests the plotted curves with those same fixed
degrees; no caller- or data-chosen degree exists. -/
theorem C10_fixed_degrees (m : Pump_Model) :
    ((Pump_Controller.LSFit m).LSFitHead.x = m.FlowData
      ∧ (Pump_Controller.LSFit m).LSFitHead.fitResult
          = fit m.FlowData m.HeadData 2)
    ∧ ((Pump_Controller.LSFit m).LSFitEff.x = m.FlowData
      ∧ (Pump_Controller.LSFit m).LSFitEff.fitResult
          = fit m.FlowData m.EffData 3)
    ∧ Pump_View.DoPlot m
        = (Pump_View.GetPlotInfo m.LSFitHead 2, Pump_View.GetPlotInfo m.LSFitEff 3) :=
  ⟨⟨rfl, rfl⟩, ⟨rfl, rfl⟩, rfl⟩

end PumpSpec
